import Mathlib

/-
Verification development for the schedule-tree transformation layer
(tc/core/polyhedral/schedule_transforms.cc).

The integer-set/relation algebra (isl) is an external library for this
layer; it is modelled mathematically:
  - a statement instance is a pair of a statement identifier and an
    integer iteration vector,
  - an isl union_set is a set of statement instances,
  - an isl union_map from instances to schedule coordinates is a set of
    pairs (instance, coordinate tuple),
  - a multi_union_pw_aff (band schedule function) is a total function
    from instances to coordinate tuples,
  - an extension relation maps coordinate tuples to instances.

A schedule tree is an inductive tagged variant over the seven node
kinds.  A node of a tree is identified by its path of child positions
from the root, which is how the C++ pointer-plus-ancestors discipline
is rendered functionally.  Fatal CHECK failures are modelled by Option:
a transformation returns none exactly when the C++ code aborts.
-/

namespace TCSched

/-- Integer schedule-coordinate tuples and iteration vectors. -/
abbrev Vec : Type := List Int

/-- A statement instance: statement identifier paired with an iteration vector. -/
abbrev Pt (S : Type) : Type := S × Vec

/-- Model of isl union_set: a set of statement instances. -/
abbrev USet (S : Type) : Type := Set (Pt S)

/-- Model of isl union_map from statement instances to schedule coordinates. -/
abbrev UMap (S : Type) : Type := Set (Pt S × Vec)

/-- Model of an extension relation: schedule coordinates to statement instances. -/
abbrev ExtRel (S : Type) : Type := Set (Vec × Pt S)

/-- Schedule tree nodes (schedule_tree_elem.h): Domain, Band, Filter,
MappingFilter, Sequence, Set, Extension, Context, each owning a list of
children.  A Band carries its multi affine function, the coincident and
unroll flag vectors and the permutable flag.  A MappingFilter carries the
set of hardware mapping ids it binds.  An Extension carries the input
(schedule-coordinate) dimension of its relation alongside the relation. -/
inductive STree (S : Type) : Type where
  | domain (dom : USet S) (children : List (STree S))
  | band (mupa : Pt S → Vec) (coincident : List Bool) (unroll : List Bool)
      (permutable : Bool) (children : List (STree S))
  | filter (filt : USet S) (children : List (STree S))
  | mappingFilter (filt : USet S) (ids : Finset Nat) (children : List (STree S))
  | sequence (children : List (STree S))
  | setNode (children : List (STree S))
  | extension (dimIn : Nat) (ext : ExtRel S) (children : List (STree S))
  | context (ctx : Set Vec) (children : List (STree S))

namespace STree

variable {S : Type}

/-- The ordered child list of a node. -/
def children : STree S → List (STree S)
  | .domain _ cs => cs
  | .band _ _ _ _ cs => cs
  | .filter _ cs => cs
  | .mappingFilter _ _ cs => cs
  | .sequence cs => cs
  | .setNode cs => cs
  | .extension _ _ cs => cs
  | .context _ cs => cs

/-- Replace the child list of a node, keeping its payload. -/
def withChildren : STree S → List (STree S) → STree S
  | .domain d _, cs => .domain d cs
  | .band m c u p _, cs => .band m c u p cs
  | .filter f _, cs => .filter f cs
  | .mappingFilter f ids _, cs => .mappingFilter f ids cs
  | .sequence _, cs => .sequence cs
  | .setNode _, cs => .setNode cs
  | .extension n e _, cs => .extension n e cs
  | .context c _, cs => .context c cs

/-- Kind test: Domain node (elemAs ScheduleTreeElemDomain). -/
def isDomain : STree S → Bool
  | .domain _ _ => true
  | _ => false

/-- Kind test: Extension node. -/
def isExtension : STree S → Bool
  | .extension _ _ _ => true
  | _ => false

/-- Kind test: plain Filter or MappingFilter (elemAsBase ScheduleTreeElemFilter). -/
def isFilterLike : STree S → Bool
  | .filter _ _ => true
  | .mappingFilter _ _ _ => true
  | _ => false

/-- Kind test: MappingFilter node. -/
def isMappingFilter : STree S → Bool
  | .mappingFilter _ _ _ => true
  | _ => false

/-- The band affine function of a node, when the node is a Band. -/
def mupaOf : STree S → Option (Pt S → Vec)
  | .band m _ _ _ _ => some m
  | _ => none

/-- The coincident flag vector of a node, when the node is a Band. -/
def coincOf : STree S → Option (List Bool)
  | .band _ c _ _ _ => some c
  | _ => none

/-- The unroll flag vector of a node, when the node is a Band. -/
def unrollOf : STree S → Option (List Bool)
  | .band _ _ u _ _ => some u
  | _ => none

end STree

variable {S : Type}

/-- Node lookup by path of child positions (the functional rendering of a
ScheduleTree pointer relative to a root). -/
def descend : STree S → List Nat → Option (STree S)
  | t, [] => some t
  | t, i :: p => (t.children[i]?).bind (fun c => descend c p)

/-- Replace the subtree at a path, rebuilding the spine.  Modelled from the
spec: child-list edits that transfer ownership (replace a single child);
this is how an in-place pointer update is rendered functionally. -/
def replaceAt : STree S → List Nat → STree S → Option (STree S)
  | _, [], new => some new
  | t, i :: p, new => (t.children[i]?).bind (fun c =>
      (replaceAt c p new).map (fun c' => t.withChildren (t.children.set i c')))

mutual

/-- Number of nodes of a tree (used to bound iterative rescans). -/
def size : STree S → Nat
  | .domain _ cs => 1 + sizeL cs
  | .band _ _ _ _ cs => 1 + sizeL cs
  | .filter _ cs => 1 + sizeL cs
  | .mappingFilter _ _ cs => 1 + sizeL cs
  | .sequence cs => 1 + sizeL cs
  | .setNode cs => 1 + sizeL cs
  | .extension _ _ cs => 1 + sizeL cs
  | .context _ cs => 1 + sizeL cs

/-- Total number of nodes of a list of trees. -/
def sizeL : List (STree S) → Nat
  | [] => 0
  | c :: cs => size c + sizeL cs

end

/-- The ancestors of the node at the given path, paired with their own
paths: the chain from the root (inclusive) down to the node's parent
(inclusive), i.e. node->ancestors(root).  The accumulator pre is the path
of t itself. -/
def pathNodesWith (t : STree S) (pre : List Nat) : List Nat → List (STree S × List Nat)
  | [] => []
  | i :: p => (t, pre) :: (match t.children[i]? with
      | some c => pathNodesWith c (pre ++ [i]) p
      | none => [])

----------------------------------------------------------------------
-- Derived schedule computation (extendSchedule, partialScheduleImpl,
-- prefixSchedule, partialSchedule, activeDomainPoints)
----------------------------------------------------------------------

/-- isl union_map::from_domain: each point of the set maps to the
zero-dimensional tuple. -/
def fromDomain (d : USet S) : UMap S := {pc | pc.1 ∈ d ∧ pc.2 = []}

/-- isl flat_range_product of a schedule with union_map::from(mupa):
extend each coordinate tuple by the band function's value. -/
def umFlatRangeProduct (m : UMap S) (mupa : Pt S → Vec) : UMap S :=
  {pc | ∃ c, (pc.1, c) ∈ m ∧ pc.2 = c ++ mupa pc.1}

/-- isl union_map::intersect_domain. -/
def interDomain (m : UMap S) (u : USet S) : UMap S := {pc ∈ m | pc.1 ∈ u}

/-- isl union_map::intersect_range with a set of coordinate tuples. -/
def interRange (m : UMap S) (r : Set Vec) : UMap S := {pc ∈ m | pc.2 ∈ r}

/-- isl union_map::range of a schedule. -/
def rangeOf (m : UMap S) : Set Vec := {c | ∃ p, (p, c) ∈ m}

/-- isl union_map::domain of a schedule, as a set of statement instances. -/
def domMap (m : UMap S) : USet S := {p | ∃ c, (p, c) ∈ m}

/-- isl reverse of an extension relation. -/
def reverseRel (e : ExtRel S) : UMap S := {pc | (pc.2, pc.1) ∈ e}

/-- isl union_map::range of an extension relation. -/
def extRange (e : ExtRel S) : USet S := {p | ∃ c, (c, p) ∈ e}

/-- isl union_set::apply: image of a set of coordinate tuples under an
extension relation. -/
def applyExt (r : Set Vec) (e : ExtRel S) : USet S := {p | ∃ c ∈ r, (c, p) ∈ e}

/-- extendSchedule (schedule_transforms.cc:48-67): extend a non-null
partial-schedule relation by one node.  A Band with at least one member
flat-range-products its affine function; a Filter (or MappingFilter)
intersects the domain; an Extension unions in the reverse of its relation
restricted to the already-reachable coordinates; other kinds are no-ops. -/
def extendSchedule (node : STree S) (schedule : UMap S) : UMap S :=
  match node with
  | .band mupa coinc _ _ _ =>
      if 0 < coinc.length then umFlatRangeProduct schedule mupa else schedule
  | .filter f _ => interDomain schedule f
  | .mappingFilter f _ _ => interDomain schedule f
  | .extension _ ext _ =>
      schedule ∪ interRange (reverseRel ext) (rangeOf schedule)
  | _ => schedule

/-- One iteration of the partialScheduleImpl loop: a Domain ancestor
(re)initialises the schedule from its universe; any other node extends a
non-null schedule and leaves a null schedule null. -/
def schedStep (acc : Option (UMap S)) (anc : STree S) : Option (UMap S) :=
  match anc with
  | .domain d _ => some (fromDomain d)
  | _ => acc.map (extendSchedule anc)

/-- The partialScheduleImpl fold over a list of ancestors, starting from a
null (none) schedule. -/
def schedFold : Option (UMap S) → List (STree S) → Option (UMap S)
  | acc, [] => acc
  | acc, anc :: rest => schedFold (schedStep acc anc) rest

/-- prefixSchedule(root, node) (schedule_transforms.cc:90-94): fold over
the ancestors of the node, the node itself excluded. -/
def prefixSchedule (root : STree S) (path : List Nat) : Option (UMap S) :=
  schedFold none ((pathNodesWith root [] path).map Prod.fst)

/-- partialSchedule(root, node) (schedule_transforms.cc:96-100): fold over
the ancestors of the node and the node itself. -/
def partialSchedule (root : STree S) (path : List Nat) : Option (UMap S) :=
  match descend root path with
  | some n => schedFold none ((pathNodesWith root [] path).map Prod.fst ++ [n])
  | none => none

/-- One iteration of the activeDomainPoints loop (schedule_transforms.cc:
118-134) over an ancestor together with its path: a Filter intersects; an
Extension checks that the prefix schedule at the extension point is
non-null or the extension has a zero-dimensional domain side (fatal
otherwise, modelled by none), then either applies the extension to the
range of the prefix schedule restricted to the active set, or unions in
the extension's range unconditionally; other kinds are skipped. -/
def adpStep (root : STree S) (domain : USet S) (e : STree S × List Nat) :
    Option (USet S) :=
  match e.1 with
  | .filter f _ => some (domain ∩ f)
  | .mappingFilter f _ _ => some (domain ∩ f)
  | .extension dimIn ext _ =>
      match prefixSchedule root e.2 with
      | some ps => some (domain ∪ applyExt (rangeOf (interDomain ps domain)) ext)
      | none => if dimIn = 0 then some (domain ∪ extRange ext) else none
  | _ => some domain

/-- The activeDomainPoints fold over the ancestor list. -/
def adpFold (root : STree S) : USet S → List (STree S × List Nat) → Option (USet S)
  | d, [] => some d
  | d, e :: es => (adpStep root d e).bind (fun d' => adpFold root d' es)

/-- activeDomainPoints(root, node) (schedule_transforms.cc:107-136): fatal
(none) unless the root is a Domain node; returns the root domain when the
node is the root itself; otherwise folds the adpStep over the node's
ancestors. -/
def activeDomainPoints (root : STree S) (path : List Nat) : Option (USet S) :=
  match root with
  | .domain d _ =>
      if path = [] then some d
      else adpFold root d (pathNodesWith root [] path)
  | _ => none

----------------------------------------------------------------------
-- swapSubtree
----------------------------------------------------------------------

/-- swapSubtree (schedule_transforms.cc:162-172): fatal (none) when the
node is the relative root itself (the CHECK demands a strict ancestor);
otherwise replaces the node in its parent's child list with the new
subtree.  Returns the updated root; the returned C++ pointer corresponds
to the node found at the same path in the updated root. -/
def swapSubtree (relativeRoot : STree S) (path : List Nat) (newTree : STree S) :
    Option (STree S) :=
  if path = [] then none
  else (descend relativeRoot path).bind (fun _ => replaceAt relativeRoot path newTree)

----------------------------------------------------------------------
-- joinBands / joinBandsIterative
----------------------------------------------------------------------

/-- Dimension-stacking concatenation (flat_range_product) of two band
affine functions. -/
def mupaFRP (a b : Pt S → Vec) : Pt S → Vec := fun p => a p ++ b p

/-- joinBandsHelper (schedule_transforms.cc:185-208): fatal (none) if the
node is not a Band.  If the single child is also a Band, combine the two
affine functions, pad the coincident vector with false for the members
coming from the nested band, concatenate the unroll vectors, and report
moveChildren = true; otherwise return the node unchanged. -/
def joinBandsHelper (st : STree S) : Option (STree S × Bool) :=
  match st with
  | .band mupa coinc unroll perm cs =>
      match cs with
      | [child] =>
          match child with
          | .band cmupa ccoinc cunroll cperm gcs =>
              some (.band (mupaFRP mupa cmupa)
                  (coinc ++ List.replicate ccoinc.length false)
                  (unroll ++ cunroll) perm
                  [.band cmupa ccoinc cunroll cperm gcs], true)
          | c => some (.band mupa coinc unroll perm [c], false)
      | _ => some (.band mupa coinc unroll perm cs, false)
  | _ => none

/-- Write the permutable flag of a Band node (st->elemAs<Band>()->permutable_);
fatal (none) on a non-Band. -/
def setPermutable : STree S → Bool → Option (STree S)
  | .band m c u _ cs, perm => some (.band m c u perm cs)
  | _, _ => none

/-- joinBands (schedule_transforms.cc:212-224): run the helper; if it
merged, re-parent the grandchildren (expecting exactly one child);
finally set the permutable flag. -/
def joinBands (st : STree S) (permutable : Bool) : Option (STree S) :=
  match joinBandsHelper st with
  | some (st1, move) =>
      let st2 := if move then
          match st1.children with
          | [c] => some (st1.withChildren c.children)
          | _ => none
        else some st1
      match st2 with
      | some t => setPermutable t permutable
      | none => none
  | none => none

/-- The joinBandsIterative loop with explicit fuel; each merging iteration
removes one node, so a fuel of size st bounds the number of iterations. -/
def joinBandsIterativeFuel : Nat → STree S → Bool → Option (STree S)
  | 0, st, permutable => setPermutable st permutable
  | fuel + 1, st, permutable =>
      match joinBandsHelper st with
      | some (st1, move) =>
          if move then
            match st1.children with
            | [c] => joinBandsIterativeFuel fuel (st1.withChildren c.children) permutable
            | _ => none
          else setPermutable st1 permutable
      | none => none

/-- joinBandsIterative (schedule_transforms.cc:226-239): repeat the merge
until no single-Band child remains. -/
def joinBandsIterative (st : STree S) (permutable : Bool) : Option (STree S) :=
  joinBandsIterativeFuel (size st) st permutable

----------------------------------------------------------------------
-- bandTile
----------------------------------------------------------------------

/-- Tile options: the configuration flag set over ScaleTileLoops and
ShiftPointLoops. -/
structure TileOptions : Type where
  scaleTileLoops : Bool
  shiftPointLoops : Bool

/-- The member count of a band.  Modelled from the spec: the parallel
coincident and unroll vectors have length equal to the member count, so
the member count is read off the coincident vector (nMember of
ScheduleTreeElemBand, whose definition is outside this translation unit). -/
def nMemberOf (coinc : List Bool) : Nat := coinc.length

/-- The two std::vector::resize calls of bandTile: zero-pad an undersized
size vector, truncate an oversized one (with only a warning). -/
def resizeSizes (ts : List Nat) (n : Nat) : List Nat :=
  ts.take n ++ List.replicate (n - ts.length) 0

/-- One member's new affine value in bandTile's loop: a nonzero size tiles
by scale_down and floor, re-scaled by the size when ScaleTileLoops is set;
a zero size falls into the else branch that scales the affine by the
value 0. -/
def tileUpa (opts : TileOptions) (t : Nat) (x : Int) : Int :=
  if t ≠ 0 then
    (if opts.scaleTileLoops then (Int.fdiv x t) * (t : Int) else Int.fdiv x t)
  else x * (t : Int)

/-- get_union_pw_aff: the i-th coordinate of a band affine function. -/
def getUpa (mupa : Pt S → Vec) (i : Nat) : Pt S → Int := fun p => (mupa p).getD i 0

/-- set_union_pw_aff: replace the i-th coordinate of a band affine function. -/
def setUpa (mupa : Pt S → Vec) (i : Nat) (u : Pt S → Int) : Pt S → Vec :=
  fun p => (mupa p).set i (u p)

/-- The bandTile member loop over the member indices. -/
def tileLoop (opts : TileOptions) (ts : List Nat) (is : List Nat)
    (mupa : Pt S → Vec) : Pt S → Vec :=
  is.foldl (fun m i => setUpa m i (fun p => tileUpa opts (ts.getD i 0) (getUpa m i p))) mupa

/-- Pointwise subtraction of band affine functions (mupa.sub). -/
def mupaSub (a b : Pt S → Vec) : Pt S → Vec :=
  fun p => List.zipWith (fun x y => x - y) (a p) (b p)

/-- scale_multi_val with the size vector (makeMultiVal over the sizes). -/
def mupaScaleSizes (a : Pt S → Vec) (ts : List Nat) : Pt S → Vec :=
  fun p => List.zipWith (fun x (t : Nat) => x * (t : Int)) (a p) ts

/-- bandTile (schedule_transforms.cc:310-370): fatal (none) on a non-Band;
returns the tree unchanged on an empty size vector; fatal on a
non-permutable band; otherwise resizes the size vector to the member
count, copies the node (children included) for the point band, rewrites
each member's affine, optionally shifts the point band's affine, and
re-parents the copy as the only child. -/
def bandTile (st : STree S) (tileSizes : List Nat) (tileOptions : TileOptions) :
    Option (STree S) :=
  match st with
  | .band mupa coinc unroll perm cs =>
      if tileSizes.length = 0 then some (.band mupa coinc unroll perm cs)
      else if perm = false then none
      else
        let n := nMemberOf coinc
        let ts := resizeSizes tileSizes n
        let newMupa := tileLoop tileOptions ts (List.range n) mupa
        let childMupa :=
          if tileOptions.shiftPointLoops then
            (if tileOptions.scaleTileLoops then mupaSub mupa newMupa
             else mupaSub mupa (mupaScaleSizes newMupa ts))
          else mupa
        some (.band newMupa coinc unroll perm
            [.band childMupa coinc unroll perm cs])
  | _ => none

----------------------------------------------------------------------
-- bandSplit
----------------------------------------------------------------------

/-- Drop k members of a band starting at index f, from the affine
function and both flag vectors.  Modelled from the spec:
ScheduleTreeElemBand::drop is outside this translation unit; the spec
describes bandSplit as keeping the member ranges before and after the
split position in the two resulting bands. -/
def bandDropMupa (mupa : Pt S → Vec) (f k : Nat) : Pt S → Vec :=
  fun p => (mupa p).take f ++ (mupa p).drop (f + k)

/-- Drop k entries of a flag vector starting at index f. -/
def dropFlags (v : List Bool) (f k : Nat) : List Bool :=
  v.take f ++ v.drop (f + k)

/-- bandSplit (schedule_transforms.cc:263-282): fatal (none) on a
non-Band, on a band with no members, or on a position past the member
count.  Otherwise the node keeps members before pos and gains a single
new child Band keeping the members from pos on, which absorbs the
original children. -/
def bandSplit (relativeRoot : STree S) (tree : STree S) (pos : Nat) :
    Option (STree S) :=
  match tree with
  | .band mupa coinc unroll perm cs =>
      let n := nMemberOf coinc
      if n = 0 then none
      else if n < pos then none
      else
        some (.band (bandDropMupa mupa pos (n - pos)) (dropFlags coinc pos (n - pos))
            (dropFlags unroll pos (n - pos)) perm
            [.band (bandDropMupa mupa 0 pos) (dropFlags coinc 0 pos)
                (dropFlags unroll 0 pos) perm cs])
  | _ => none

----------------------------------------------------------------------
-- mergeConsecutiveMappingFilters
----------------------------------------------------------------------

/-- isl union_set::n_set: the number of distinct statement tuple spaces of
a union set.  isl union sets keep no empty components, so this is the
number of statement identifiers with a nonempty component. -/
noncomputable def nSet (u : USet S) : Nat := Set.ncard {s | ∃ v, (s, v) ∈ u}

mutual

/-- ScheduleTree::collect(node, MappingFilter), with paths.  Modelled from
the spec: the tree-walking collector is outside this translation unit; it
gathers, in depth-first preorder, every MappingFilter node of the subtree,
here returned as the list of their paths (pre is the path of the subtree's
root). -/
def collectMF : List Nat → STree S → List (List Nat)
  | pre, .mappingFilter _ _ cs => pre :: collectMFL pre 0 cs
  | pre, .domain _ cs => collectMFL pre 0 cs
  | pre, .band _ _ _ _ cs => collectMFL pre 0 cs
  | pre, .filter _ cs => collectMFL pre 0 cs
  | pre, .sequence cs => collectMFL pre 0 cs
  | pre, .setNode cs => collectMFL pre 0 cs
  | pre, .extension _ _ cs => collectMFL pre 0 cs
  | pre, .context _ cs => collectMFL pre 0 cs

/-- Collect MappingFilter paths over a child list starting at child
position i. -/
def collectMFL : List Nat → Nat → List (STree S) → List (List Nat)
  | _, _, [] => []
  | pre, i, c :: cs => collectMF (pre ++ [i]) c ++ collectMFL pre (i + 1) cs

end

/-- One candidate of the mergeConsecutiveMappingFilters scan, at the
MappingFilter whose path (relative to the root) is fp.  Result: none when
the pair is skipped (parent not a MappingFilter, or the intersection does
not preserve the tuple counts); some none when the merge is fatal (a
mapping id bound in both members, or a childless merged filter); some
(some r) with the updated root when the pair merges: the parent's set
becomes the intersection, its id set the union, and the child is replaced
by its own first child. -/
noncomputable def tryMergeAt (root : STree S) (fp : List Nat) :
    Option (Option (STree S)) :=
  match fp with
  | [] => none
  | _ :: _ =>
      match descend root fp.dropLast with
      | some (.mappingFilter pf pids pcs) =>
          match descend root fp with
          | some (.mappingFilter ff fids fcs) =>
              if nSet (pf ∩ ff) = nSet pf ∧ nSet (pf ∩ ff) = nSet ff then
                if (pids ∩ fids).Nonempty then some none
                else
                  match fcs with
                  | [] => some none
                  | c0 :: _ =>
                      match replaceAt root fp.dropLast
                          (.mappingFilter (pf ∩ ff) (pids ∪ fids)
                            (pcs.set (fp.getLastD 0) c0)) with
                      | some r => some (some r)
                      | none => some none
              else none
          | _ => none
      | _ => none

/-- Scan the collected MappingFilter paths for the first pair that merges
(the for loop of schedule_transforms.cc:675-705): none when a full pass
changes nothing, some none on a fatal merge, some (some r) on the first
successful merge. -/
noncomputable def scanMerge (root : STree S) : List (List Nat) → Option (Option (STree S))
  | [] => none
  | fp :: rest =>
      match tryMergeAt root fp with
      | none => scanMerge root rest
      | some r => some r

/-- The while(changed) loop of mergeConsecutiveMappingFilters with
explicit fuel; each successful merge removes one node, so a fuel of
size root bounds the number of iterations. -/
noncomputable def mergeLoop (np : List Nat) : Nat → STree S → Option (STree S)
  | 0, root => some root
  | fuel + 1, root =>
      match descend root np with
      | none => none
      | some nd =>
          match scanMerge root (collectMF np nd) with
          | none => some root
          | some none => none
          | some (some r) => mergeLoop np fuel r

/-- mergeConsecutiveMappingFilters (schedule_transforms.cc:663-708): fatal
(none) unless the root is a Domain or Extension node; repeatedly scans the
subtree at np for a MappingFilter whose parent is also a MappingFilter and
merges the first eligible pair, until a fixed point is reached. -/
noncomputable def mergeConsecutiveMappingFilters (root : STree S) (np : List Nat) :
    Option (STree S) :=
  match root with
  | .domain _ _ => mergeLoop np (size root) root
  | .extension _ _ _ => mergeLoop np (size root) root
  | _ => none

----------------------------------------------------------------------
-- Vocabulary used by the theorem statements
----------------------------------------------------------------------

/-- Membership of a statement instance in the domain of a possibly-null
schedule relation (False on a null relation). -/
def inDomOfSched (o : Option (UMap S)) (pt : Pt S) : Prop :=
  match o with
  | some m => pt ∈ domMap m
  | none => False

/-- Membership of a statement instance in a possibly-fatal active set
(False on the fatal result). -/
def inOptSet (o : Option (USet S)) (pt : Pt S) : Prop :=
  match o with
  | some a => pt ∈ a
  | none => False

/-- The payload of one Band node of a band chain. -/
structure BandSpec (S : Type) : Type where
  mupa : Pt S → Vec
  coinc : List Bool
  unroll : List Bool
  perm : Bool

/-- A chain of single-child Band nodes over a common tail subtree. -/
def bandChain : List (BandSpec S) → STree S → STree S
  | [], t => t
  | b :: bs, t => .band b.mupa b.coinc b.unroll b.perm [bandChain bs t]

/-- Dimension-stacked concatenation of the affine functions of a list of
band specs. -/
def chainMupa (bs : List (BandSpec S)) : Pt S → Vec :=
  fun p => (bs.map (fun b => b.mupa p)).flatten

/-- Total member count of a list of band specs. -/
def chainCoincLen (bs : List (BandSpec S)) : Nat :=
  (bs.map (fun b => b.coinc.length)).sum

/-- Concatenation, in order, of the unroll vectors of a list of band specs. -/
def chainUnroll (bs : List (BandSpec S)) : List Bool :=
  (bs.map (fun b => b.unroll)).flatten

/-- No strict ancestor of the node at the path, other than the root
itself, is a Domain node (the data-model invariant: the tree has exactly
one Domain node, at the root). -/
def noInnerDomain (root : STree S) (path : List Nat) : Prop :=
  ∀ e ∈ (pathNodesWith root [] path).tail, e.1.isDomain = false

/-- The payload of one MappingFilter node of a filter chain. -/
structure MFSpec (S : Type) : Type where
  filt : USet S
  ids : Finset Nat

/-- A chain of nested single-child MappingFilter nodes over a common tail
subtree. -/
def mfChain : List (MFSpec S) → STree S → STree S
  | [], t => t
  | s :: ss, t => .mappingFilter s.filt s.ids [mfChain ss t]

/-- Intersection of the head filter with all filters of the list. -/
def chainInter : USet S → List (MFSpec S) → USet S
  | f, [] => f
  | f, s :: ss => chainInter (f ∩ s.filt) ss

/-- Union of the head id set with all id sets of the list. -/
def chainIds : Finset Nat → List (MFSpec S) → Finset Nat
  | ids, [] => ids
  | ids, s :: ss => chainIds (ids ∪ s.ids) ss

/-- Each step of the chain merge preserves the tuple count of both
operands: intersecting the accumulated filter with the next filter keeps
the n_set of the accumulated filter and of the next filter. -/
def stepwiseOk : USet S → List (MFSpec S) → Prop
  | _, [] => True
  | f, s :: ss =>
      nSet (f ∩ s.filt) = nSet f ∧ nSet (f ∩ s.filt) = nSet s.filt ∧
      stepwiseOk (f ∩ s.filt) ss

/-- The accumulated id set stays disjoint from each next id set along the
chain (implied by pairwise disjointness of the chain's id sets). -/
def idsOk : Finset Nat → List (MFSpec S) → Prop
  | _, [] => True
  | acc, s :: ss => acc ∩ s.ids = ∅ ∧ idsOk (acc ∪ s.ids) ss

/-- The preorder paths of the MappingFilter nodes of a filter chain of
the given length below the position pre (each chain node is the only,
0-th, child of its parent). -/
def mfPaths (pre : List Nat) : Nat → List (List Nat)
  | 0 => []
  | k + 1 => pre :: mfPaths (pre ++ [0]) k

mutual

/-- Whether a subtree contains a MappingFilter node. -/
def hasMF : STree S → Bool
  | .mappingFilter _ _ _ => true
  | .domain _ cs => hasMFL cs
  | .band _ _ _ _ cs => hasMFL cs
  | .filter _ cs => hasMFL cs
  | .sequence cs => hasMFL cs
  | .setNode cs => hasMFL cs
  | .extension _ _ cs => hasMFL cs
  | .context _ cs => hasMFL cs

/-- Whether any tree of a list contains a MappingFilter node. -/
def hasMFL : List (STree S) → Bool
  | [] => false
  | c :: cs => hasMF c || hasMFL cs

end

----------------------------------------------------------------------
-- Concrete trees used by counterexamples and code-behaviour theorems
----------------------------------------------------------------------

/-- The C1 counterexample domain: a single instance of statement S. -/
def c1Dom : USet String := {p | p.1 = "S" ∧ p.2 = []}

/-- The C1 counterexample extension: maps the zero-dimensional schedule
tuple to an instance of the synthetic statement T. -/
def c1Ext : ExtRel String := {cp | cp.1 = [] ∧ cp.2 = ("T", [])}

/-- The C1 counterexample tree: a domain whose only child is an
extension node. -/
def c1Root : STree String := .domain c1Dom [.extension 0 c1Ext []]

/-- A domain over a filter over a sequence: witness tree for C1. -/
def c1wRoot : STree Unit :=
  .domain Set.univ [.filter {p | p.2 = []} [.sequence []]]

/-- The C7 counterexample domain: a single instance of statement S. -/
def c7Dom : USet String := {p | p.1 = "S" ∧ p.2 = []}

/-- The C7 counterexample extension relation, with a one-dimensional
domain side. -/
def c7Ext : ExtRel String := {cp | cp.1 = [0] ∧ cp.2 = ("T", [])}

/-- The C7 counterexample tree: an Extension node with dimIn = 1 directly
under the Domain root, with no Band ancestor. -/
def c7Root : STree String := .domain c7Dom [.extension 1 c7Ext [.sequence []]]

/-- The C6 counterexample filter: statement A at iterations [1] or [2]. -/
def c6F1 : USet String := {p | p.1 = "A" ∧ (p.2 = [1] ∨ p.2 = [2])}

/-- The C6 counterexample filter: statement A at iterations [2] or [3]. -/
def c6F2 : USet String := {p | p.1 = "A" ∧ (p.2 = [2] ∨ p.2 = [3])}

/-- The C6 counterexample filter: statement A at iterations [1] or [3]. -/
def c6F3 : USet String := {p | p.1 = "A" ∧ (p.2 = [1] ∨ p.2 = [3])}

/-- The C6 counterexample: a chain of three MappingFilters with pairwise
disjoint id sets whose pairwise intersections all preserve the tuple
counts, but whose triple intersection is empty. -/
def c6xRoot : STree String :=
  .domain Set.univ
    [mfChain [⟨c6F1, {0}⟩, ⟨c6F2, {1}⟩, ⟨c6F3, {2}⟩] (.sequence [])]

/-- A one-instance filter used by the C6 unmerged-pair and fatal parts. -/
def c6G1 : USet String := {p | p.1 = "A" ∧ p.2 = [1]}

/-- A second one-instance filter, disjoint from c6G1. -/
def c6G2 : USet String := {p | p.1 = "A" ∧ p.2 = [2]}

/-- A 2-chain whose intersection does not preserve the tuple counts: the
pair must be left unmerged. -/
def c6bRoot : STree String :=
  .domain Set.univ [mfChain [⟨c6G1, {0}⟩, ⟨c6G2, {1}⟩] (.sequence [])]

/-- A 2-chain whose pair passes the tuple-count gate but binds the
hardware id 5 in both members: the merge is fatal. -/
def c6cRoot : STree String :=
  .domain Set.univ [mfChain [⟨c6G1, {5}⟩, ⟨c6G1, {5}⟩] (.sequence [])]

/-- A band with a coincident member nested over another band with a
coincident member: input of the C2 counterexample. -/
def c2CexTree : STree Unit :=
  .band (fun _ => []) [true] [false] true
    [.band (fun _ => []) [true] [true] true []]

/-- A permutable two-member band whose affine is the identity on the
iteration vector: input of the C3 code-behaviour theorem. -/
def c3Band : STree String := .band (fun p => p.2) [false, false] [false, false] true []

/-- The C4 scenario domain { S(i) : 0 <= i < 10; T(j) : 0 <= j < 10 }. -/
def c4Dom : USet String :=
  {p | (p.1 = "S" ∨ p.1 = "T") ∧ ∃ i : Int, p.2 = [i] ∧ 0 ≤ i ∧ i < 10}

/-- The filter child selecting statement S in the C4 scenario. -/
def c4FilterS : STree String := .filter {p | p.1 = "S"} []

/-- The filter child selecting statement T in the C4 scenario. -/
def c4FilterT : STree String := .filter {p | p.1 = "T"} []

/-- The single 1-member band of the C4 scenario, with affine i to i and
j to j, over the two filter children. -/
def c4Band : STree String :=
  .band (fun p => [p.2.headI]) [false] [false] true [c4FilterS, c4FilterT]

/-- The C4 scenario root: the domain over the band. -/
def c4Root : STree String := .domain c4Dom [c4Band]

----------------------------------------------------------------------
-- Basic lemmas
----------------------------------------------------------------------

@[simp] theorem STree.children_withChildren (t : STree S) (cs : List (STree S)) :
    (t.withChildren cs).children = cs := by
  cases t <;> rfl

@[simp] theorem descend_nil (t : STree S) : descend t [] = some t := rfl

----------------------------------------------------------------------
-- Navigation lemmas
----------------------------------------------------------------------

theorem descend_append (t : STree S) (p q : List Nat) :
    descend t (p ++ q) = (descend t p).bind (fun m => descend m q) := by
  induction p generalizing t with
  | nil => simp [descend]
  | cons i p' ih =>
      cases h : t.children[i]? with
      | none => simp [descend, h]
      | some c => simp [descend, h, ih]

theorem descend_snoc (t : STree S) (p : List Nat) (j : Nat) :
    descend t (p ++ [j]) = (descend t p).bind (fun m => m.children[j]?) := by
  rw [descend_append]
  cases descend t p with
  | none => rfl
  | some m =>
      cases h : m.children[j]? with
      | none => simp [descend, h]
      | some c => simp [descend, h]

theorem replaceAt_snoc (p : List Nat) : ∀ (t m new : STree S) (j : Nat),
    descend t p = some m → j < m.children.length →
    ∃ t', replaceAt t (p ++ [j]) new = some t'
      ∧ descend t' p = some (m.withChildren (m.children.set j new))
      ∧ descend t' (p ++ [j]) = some new := by
  induction p with
  | nil =>
      intro t m new j hd hj
      rw [descend_nil, Option.some.injEq] at hd
      subst hd
      obtain ⟨c, hc⟩ : ∃ c, t.children[j]? = some c := by
        cases h : t.children[j]? with
        | none => exact absurd (List.getElem?_eq_none_iff.mp h) (by omega)
        | some c => exact ⟨c, rfl⟩
      refine ⟨t.withChildren (t.children.set j new), ?_, ?_, ?_⟩
      · simp [replaceAt, hc]
      · rfl
      · simp [descend, List.getElem?_set_eq_of_lt _ (by simpa using hj)]
  | cons k p' ih =>
      intro t m new j hd hj
      cases hk : t.children[k]? with
      | none => rw [descend, hk] at hd; exact absurd hd (by simp)
      | some c =>
          rw [descend, hk, Option.some_bind] at hd
          obtain ⟨c', h1, h2, h3⟩ := ih c m new j hd hj
          have hklt : k < t.children.length := by
            obtain ⟨hlt, -⟩ := List.getElem?_eq_some_iff.mp hk
            exact hlt
          refine ⟨t.withChildren (t.children.set k c'), ?_, ?_, ?_⟩
          · simp [replaceAt, hk, h1]
          · rw [descend]
            simp only [STree.children_withChildren]
            rw [List.getElem?_set_eq_of_lt _ hklt, Option.some_bind]
            exact h2
          · show descend _ (k :: (p' ++ [j])) = some new
            rw [descend]
            simp only [STree.children_withChildren]
            rw [List.getElem?_set_eq_of_lt _ hklt, Option.some_bind]
            exact h3

theorem pathNodesWith_cons_valid (t c : STree S) (pre : List Nat) (i : Nat)
    (p : List Nat) (h : t.children[i]? = some c) :
    pathNodesWith t pre (i :: p) = (t, pre) :: pathNodesWith c (pre ++ [i]) p := by
  simp [pathNodesWith, h]

theorem pathNodesWith_append (p : List Nat) : ∀ (t m : STree S) (pre q : List Nat),
    descend t p = some m →
    pathNodesWith t pre (p ++ q) = pathNodesWith t pre p ++ pathNodesWith m (pre ++ p) q := by
  induction p with
  | nil =>
      intro t m pre q hd
      rw [descend_nil, Option.some.injEq] at hd
      subst hd
      simp [pathNodesWith]
  | cons i p' ih =>
      intro t m pre q hd
      cases hk : t.children[i]? with
      | none => rw [descend, hk] at hd; exact absurd hd (by simp)
      | some c =>
          rw [descend, hk, Option.some_bind] at hd
          rw [List.cons_append, pathNodesWith_cons_valid t c pre i _ hk,
            pathNodesWith_cons_valid t c pre i _ hk, ih c m (pre ++ [i]) q hd]
          simp

theorem pathNodesWith_snoc (t m : STree S) (pre p : List Nat) (j : Nat)
    (hd : descend t p = some m) :
    pathNodesWith t pre (p ++ [j]) = pathNodesWith t pre p ++ [(m, pre ++ p)] := by
  rw [pathNodesWith_append p t m pre [j] hd]
  cases h : m.children[j]? with
  | none => simp [pathNodesWith, h]
  | some c => simp [pathNodesWith, h]

/-- Every ancestor produced by pathNodesWith is the node found at its
recorded path. -/
theorem pathNodesWith_mem (p : List Nat) : ∀ (t : STree S) (pre : List Nat)
    (e : STree S × List Nat), e ∈ pathNodesWith t pre p →
    ∃ q, e.2 = pre ++ q ∧ descend t q = some e.1 := by
  induction p with
  | nil => intro t pre e he; simp [pathNodesWith] at he
  | cons i p' ih =>
      intro t pre e he
      cases hk : t.children[i]? with
      | none =>
          rw [pathNodesWith, hk] at he
          simp at he
          subst he
          exact ⟨[], by simp⟩
      | some c =>
          rw [pathNodesWith_cons_valid t c pre i p' hk] at he
          rcases List.mem_cons.mp he with he | he
          · subst he; exact ⟨[], by simp⟩
          · obtain ⟨q, hq, hdq⟩ := ih c (pre ++ [i]) e he
            refine ⟨i :: q, by simp [hq], ?_⟩
            rw [descend, hk, Option.some_bind]
            exact hdq

----------------------------------------------------------------------
-- Size lemmas for the iterative transforms
----------------------------------------------------------------------

theorem size_bandChain (bs : List (BandSpec S)) (t : STree S) :
    size (bandChain bs t) = bs.length + size t := by
  induction bs with
  | nil => simp [bandChain]
  | cons b rest ih => simp [bandChain, size, sizeL, ih]; omega

theorem joinBandsIterativeFuel_chain (bs : List (BandSpec S)) :
    ∀ (b : BandSpec S) (ts : List (STree S)) (perm : Bool) (fuel : Nat),
    bs.length ≤ fuel →
    joinBandsIterativeFuel fuel (bandChain (b :: bs) (.sequence ts)) perm
      = some (.band (mupaFRP b.mupa (chainMupa bs))
          (b.coinc ++ List.replicate (chainCoincLen bs) false)
          (b.unroll ++ chainUnroll bs) perm [.sequence ts]) := by
  induction bs with
  | nil =>
      intro b ts perm fuel _
      have hmu : mupaFRP b.mupa (chainMupa ([] : List (BandSpec S))) = b.mupa := by
        funext p; simp [mupaFRP, chainMupa]
      cases fuel with
      | zero =>
          simp [bandChain, joinBandsIterativeFuel, setPermutable, hmu,
            chainCoincLen, chainUnroll]
      | succ f =>
          simp [bandChain, joinBandsIterativeFuel, joinBandsHelper, setPermutable,
            hmu, chainCoincLen, chainUnroll]
  | cons b2 rest ih =>
      intro b ts perm fuel hf
      cases fuel with
      | zero => exact absurd hf (by simp)
      | succ f =>
          have hstep : joinBandsIterativeFuel (f + 1)
              (bandChain (b :: b2 :: rest) (.sequence ts)) perm
              = joinBandsIterativeFuel f
                  (bandChain (⟨mupaFRP b.mupa b2.mupa,
                      b.coinc ++ List.replicate b2.coinc.length false,
                      b.unroll ++ b2.unroll, b.perm⟩ :: rest) (.sequence ts)) perm := by
            simp [bandChain, joinBandsIterativeFuel, joinBandsHelper,
              STree.children, STree.withChildren]
          rw [hstep, ih _ ts perm f (by simp only [List.length_cons] at hf; omega)]
          have hm : mupaFRP (mupaFRP b.mupa b2.mupa) (chainMupa rest)
              = mupaFRP b.mupa (chainMupa (b2 :: rest)) := by
            funext p; simp [mupaFRP, chainMupa]
          have hc : (b.coinc ++ List.replicate b2.coinc.length false)
                ++ List.replicate (chainCoincLen rest) false
              = b.coinc ++ List.replicate (chainCoincLen (b2 :: rest)) false := by
            rw [show chainCoincLen (b2 :: rest) = b2.coinc.length + chainCoincLen rest
              from by simp [chainCoincLen]]
            rw [List.replicate_add, List.append_assoc]
          have hu : (b.unroll ++ b2.unroll) ++ chainUnroll rest
              = b.unroll ++ chainUnroll (b2 :: rest) := by
            rw [show chainUnroll (b2 :: rest) = b2.unroll ++ chainUnroll rest
              from by simp [chainUnroll]]
            rw [List.append_assoc]
          rw [hm, hc, hu]

----------------------------------------------------------------------
-- Derived-schedule lemmas
----------------------------------------------------------------------

theorem schedFold_append (acc : Option (UMap S)) (l1 l2 : List (STree S)) :
    schedFold acc (l1 ++ l2) = schedFold (schedFold acc l1) l2 := by
  induction l1 generalizing acc with
  | nil => rfl
  | cons a l ih => rw [List.cons_append, schedFold, schedFold, ih]

theorem schedStep_isSome (acc : Option (UMap S)) (anc : STree S) (h : acc.isSome) :
    (schedStep acc anc).isSome := by
  cases anc <;> simp [schedStep] <;> exact h

theorem schedFold_isSome (l : List (STree S)) :
    ∀ acc : Option (UMap S), acc.isSome → (schedFold acc l).isSome := by
  induction l with
  | nil => intro acc h; exact h
  | cons a l ih => intro acc h; rw [schedFold]; exact ih _ (schedStep_isSome acc a h)

theorem prefixSchedule_isSome (d : USet S) (kids : List (STree S)) (p : List Nat)
    (hp : p ≠ []) : (prefixSchedule (STree.domain d kids) p).isSome := by
  cases p with
  | nil => exact absurd rfl hp
  | cons i p' =>
      rw [prefixSchedule, pathNodesWith]
      rw [List.map_cons]
      rw [schedFold]
      exact schedFold_isSome _ _ (by simp [schedStep])

theorem adpFold_append (root : STree S) (l1 l2 : List (STree S × List Nat)) :
    ∀ d : USet S, adpFold root d (l1 ++ l2)
      = (adpFold root d l1).bind (fun d' => adpFold root d' l2) := by
  induction l1 with
  | nil => intro d; simp [adpFold]
  | cons e es ih =>
      intro d
      rw [List.cons_append, adpFold, adpFold]
      cases adpStep root d e with
      | none => simp
      | some d' => simp [ih]

theorem adpStep_isSome (root : STree S) (d : USet S) (n : STree S) (q : List Nat)
    (he : n.isExtension = true → (prefixSchedule root q).isSome) :
    (adpStep root d (n, q)).isSome := by
  cases n with
  | extension dimIn ext cs =>
      obtain ⟨ps, hps⟩ := Option.isSome_iff_exists.mp (he rfl)
      simp [adpStep, hps]
  | domain _ _ => simp [adpStep]
  | band _ _ _ _ _ => simp [adpStep]
  | filter _ _ => simp [adpStep]
  | mappingFilter _ _ _ => simp [adpStep]
  | sequence _ => simp [adpStep]
  | setNode _ => simp [adpStep]
  | context _ _ => simp [adpStep]

theorem adpFold_isSome (root : STree S) (L : List (STree S × List Nat))
    (hL : ∀ e ∈ L, e.1.isExtension = true → (prefixSchedule root e.2).isSome) :
    ∀ d : USet S, (adpFold root d L).isSome := by
  induction L with
  | nil => intro d; rfl
  | cons e es ih =>
      intro d
      rw [adpFold]
      obtain ⟨d', hd'⟩ := Option.isSome_iff_exists.mp
        (adpStep_isSome root d e.1 e.2 (hL e (List.mem_cons_self e es)))
      rw [hd', Option.some_bind]
      exact ih (fun x hx hext => hL x (List.mem_cons_of_mem e hx) hext) d'

theorem extension_ancestor_prefix_isSome (d : USet S) (kids : List (STree S))
    (p : List Nat) :
    ∀ e ∈ pathNodesWith (STree.domain d kids) [] p, e.1.isExtension = true →
      (prefixSchedule (STree.domain d kids) e.2).isSome := by
  intro e he hext
  obtain ⟨q, hq, hdq⟩ := pathNodesWith_mem p _ [] e he
  rw [List.nil_append] at hq
  rw [hq]
  cases q with
  | nil =>
      rw [descend_nil, Option.some.injEq] at hdq
      rw [← hdq] at hext
      exact absurd hext (by simp [STree.isExtension])
  | cons j q' => exact prefixSchedule_isSome d kids _ (by simp)

theorem activeDomainPoints_isSome (d : USet S) (kids : List (STree S))
    (p : List Nat) : (activeDomainPoints (STree.domain d kids) p).isSome := by
  rw [activeDomainPoints]
  by_cases hp : p = []
  · rw [if_pos hp]; rfl
  · rw [if_neg hp]
    exact adpFold_isSome _ _ (extension_ancestor_prefix_isSome d kids p) d

theorem domMap_umFRP_subset (M : UMap S) (f : Pt S → Vec) :
    domMap (umFlatRangeProduct M f) ⊆ domMap M := by
  rintro x ⟨c, ⟨c0, hc0, -⟩⟩
  exact ⟨c0, hc0⟩

theorem domMap_extendSchedule_nonext (n : STree S) (M : UMap S)
    (hne : n.isExtension = false) (hnd : n.isDomain = false) :
    domMap (extendSchedule n M) ⊆ domMap M := by
  cases n with
  | domain _ _ => exact absurd hnd (by simp [STree.isDomain])
  | extension _ _ _ => exact absurd hne (by simp [STree.isExtension])
  | band m c u perm cs =>
      rw [extendSchedule]
      by_cases h : 0 < c.length
      · rw [if_pos h]; exact domMap_umFRP_subset M m
      · rw [if_neg h]
  | filter f cs => rintro x ⟨c, hc, -⟩; exact ⟨c, hc⟩
  | mappingFilter f ids cs => rintro x ⟨c, hc, -⟩; exact ⟨c, hc⟩
  | sequence cs => exact fun x hx => hx
  | setNode cs => exact fun x hx => hx
  | context c cs => exact fun x hx => hx

theorem tail_mem_snoc {α : Type} (l : List α) (x e : α) (he : e ∈ l.tail) :
    e ∈ (l ++ [x]).tail := by
  cases l with
  | nil => simp at he
  | cons a l' => simpa using Or.inl he

/-- The central invariant behind C1 and C7: along any valid path of a
Domain-rooted tree with no inner Domain nodes, the activeDomainPoints
fold succeeds and its value contains the domain of the prefix schedule. -/
theorem adp_prefix_invariant (d : USet S) (kids : List (STree S)) (p : List Nat) :
    ∀ n : STree S,
    descend (STree.domain d kids) p = some n →
    noInnerDomain (STree.domain d kids) p →
    ∃ a, adpFold (STree.domain d kids) d
        (pathNodesWith (STree.domain d kids) [] p) = some a
      ∧ (p = [] → a = d)
      ∧ (p ≠ [] → ∃ P, prefixSchedule (STree.domain d kids) p = some P
          ∧ domMap P ⊆ a) := by
  induction p using List.reverseRecOn with
  | nil =>
      intro n _ _
      exact ⟨d, rfl, fun _ => rfl, fun h => absurd rfl h⟩
  | append_singleton p' j ih =>
      intro n hd hni
      have hd2 := hd
      rw [descend_snoc] at hd2
      obtain ⟨m, hm, hmj⟩ : ∃ m, descend (STree.domain d kids) p' = some m
          ∧ m.children[j]? = some n := by
        cases hdm : descend (STree.domain d kids) p' with
        | none => rw [hdm] at hd2; exact absurd hd2 (by simp)
        | some m => rw [hdm, Option.some_bind] at hd2; exact ⟨m, rfl, hd2⟩
      have hpnw : pathNodesWith (STree.domain d kids) [] (p' ++ [j])
          = pathNodesWith (STree.domain d kids) [] p' ++ [(m, p')] := by
        have := pathNodesWith_snoc (STree.domain d kids) m [] p' j hm
        simpa using this
      have hni' : noInnerDomain (STree.domain d kids) p' := by
        intro e he
        exact hni e (by rw [hpnw]; exact tail_mem_snoc _ _ _ he)
      obtain ⟨a, ha, hanil, hacons⟩ := ih m hm hni'
      have hpref : prefixSchedule (STree.domain d kids) (p' ++ [j])
          = schedStep (prefixSchedule (STree.domain d kids) p') m := by
        rw [prefixSchedule, prefixSchedule, hpnw, List.map_append, List.map_cons,
          List.map_nil, schedFold_append, schedFold, schedFold]
      rw [hpnw, adpFold_append, ha, Option.some_bind]
      by_cases hp' : p' = []
      · subst hp'
        rw [descend_nil, Option.some.injEq] at hm
        subst hm
        refine ⟨a, by simp [adpFold, adpStep], fun h => absurd h (by simp), fun _ => ?_⟩
        refine ⟨fromDomain d, ?_, ?_⟩
        · rw [hpref]; rfl
        · rintro x ⟨c, hx, -⟩
          rw [hanil rfl]
          exact hx
      · have hmd : m.isDomain = false := by
          apply hni (m, p')
          rw [hpnw]
          cases hq : pathNodesWith (STree.domain d kids) [] p' with
          | nil =>
              exact absurd hq (by cases p' with
                | nil => exact absurd rfl hp'
                | cons i q => simp [pathNodesWith])
          | cons y ys => simp
        obtain ⟨P, hP, hPa⟩ := hacons hp'
        cases m with
        | domain _ _ => exact absurd hmd (by simp [STree.isDomain])
        | filter f cs =>
            refine ⟨a ∩ f, by simp [adpFold, adpStep], fun h => absurd h (by simp),
              fun _ => ⟨interDomain P f, ?_, ?_⟩⟩
            · rw [hpref, hP]; rfl
            · rintro x ⟨c, ⟨hc, hcf⟩⟩
              exact ⟨hPa ⟨c, hc⟩, hcf⟩
        | mappingFilter f ids cs =>
            refine ⟨a ∩ f, by simp [adpFold, adpStep], fun h => absurd h (by simp),
              fun _ => ⟨interDomain P f, ?_, ?_⟩⟩
            · rw [hpref, hP]; rfl
            · rintro x ⟨c, ⟨hc, hcf⟩⟩
              exact ⟨hPa ⟨c, hc⟩, hcf⟩
        | band bm bc bu bp cs =>
            refine ⟨a, by simp [adpFold, adpStep], fun h => absurd h (by simp),
              fun _ => ⟨extendSchedule (.band bm bc bu bp cs) P, ?_, ?_⟩⟩
            · rw [hpref, hP]; rfl
            · exact fun x hx =>
                hPa (domMap_extendSchedule_nonext (.band bm bc bu bp cs) P
                  (by simp [STree.isExtension]) (by simp [STree.isDomain]) hx)
        | sequence cs =>
            refine ⟨a, by simp [adpFold, adpStep], fun h => absurd h (by simp),
              fun _ => ⟨P, by rw [hpref, hP]; rfl, hPa⟩⟩
        | setNode cs =>
            refine ⟨a, by simp [adpFold, adpStep], fun h => absurd h (by simp),
              fun _ => ⟨P, by rw [hpref, hP]; rfl, hPa⟩⟩
        | context cc cs =>
            refine ⟨a, by simp [adpFold, adpStep], fun h => absurd h (by simp),
              fun _ => ⟨P, by rw [hpref, hP]; rfl, hPa⟩⟩
        | extension dimIn ext cs =>
            refine ⟨a ∪ applyExt (rangeOf (interDomain P a)) ext,
              by simp [adpFold, adpStep, hP], fun h => absurd h (by simp),
              fun _ => ⟨P ∪ interRange (reverseRel ext) (rangeOf P), ?_, ?_⟩⟩
            · rw [hpref, hP]; rfl
            · rintro x ⟨c, hc | ⟨hrev, hrng⟩⟩
              · exact Or.inl (hPa ⟨c, hc⟩)
              · obtain ⟨y, hy⟩ := hrng
                exact Or.inr ⟨c, ⟨y, hy, hPa ⟨c, hy⟩⟩, hrev⟩

theorem schedStep_some_nondomain (P : UMap S) (n : STree S) (h : n.isDomain = false) :
    schedStep (some P) n = some (extendSchedule n P) := by
  cases n with
  | domain _ _ => exact absurd h (by simp [STree.isDomain])
  | band _ _ _ _ _ => rfl
  | filter _ _ => rfl
  | mappingFilter _ _ _ => rfl
  | sequence _ => rfl
  | setNode _ => rfl
  | extension _ _ _ => rfl
  | context _ _ => rfl

theorem activeDomainPoints_domain (d : USet S) (kids : List (STree S)) (p : List Nat) :
    activeDomainPoints (STree.domain d kids) p
      = if p = [] then some d
        else adpFold (STree.domain d kids) d
          (pathNodesWith (STree.domain d kids) [] p) := rfl

theorem partialSchedule_eq (root : STree S) (p : List Nat) (n : STree S)
    (hd : descend root p = some n) :
    partialSchedule root p = schedStep (prefixSchedule root p) n := by
  simp only [partialSchedule, hd]
  rw [schedFold_append]
  rfl

/-- Only Filter steps succeed unconditionally and shrink the active set. -/
theorem adpFold_filters (root : STree S) (L : List (STree S × List Nat))
    (hL : ∀ e ∈ L, e.1.isFilterLike = true) :
    ∀ d : USet S, ∃ b, adpFold root d L = some b ∧ b ⊆ d := by
  induction L with
  | nil => exact fun d => ⟨d, rfl, fun x hx => hx⟩
  | cons e es ih =>
      intro d
      have hfe := hL e (List.mem_cons_self e es)
      have ihe := fun x hx => hL x (List.mem_cons_of_mem e hx)
      obtain ⟨n, q⟩ := e
      cases n with
      | filter f cs =>
          obtain ⟨b, hb, hsub⟩ := ih ihe (d ∩ f)
          exact ⟨b, by rw [adpFold, adpStep, Option.some_bind]; exact hb,
            fun x hx => (hsub hx).1⟩
      | mappingFilter f ids cs =>
          obtain ⟨b, hb, hsub⟩ := ih ihe (d ∩ f)
          exact ⟨b, by rw [adpFold, adpStep, Option.some_bind]; exact hb,
            fun x hx => (hsub hx).1⟩
      | domain _ _ => exact absurd hfe (by simp [STree.isFilterLike])
      | band _ _ _ _ _ => exact absurd hfe (by simp [STree.isFilterLike])
      | sequence _ => exact absurd hfe (by simp [STree.isFilterLike])
      | setNode _ => exact absurd hfe (by simp [STree.isFilterLike])
      | extension _ _ _ => exact absurd hfe (by simp [STree.isFilterLike])
      | context _ _ => exact absurd hfe (by simp [STree.isFilterLike])

----------------------------------------------------------------------
-- Claim theorems
----------------------------------------------------------------------

/-- C2 counterexample: joinBands on a band whose outer coincident vector
is [true] produces the coincident vector [true, false]: the outer band's
coincident flag survives the merge, so the claim that all coincident
flags of the merged band are reset to false is false. -/
theorem C2_counterexample :
    (joinBands c2CexTree true).bind STree.coincOf = some [true, false]
    ∧ [true, false] ≠ List.replicate 2 false := by
  exact ⟨rfl, by decide⟩

/-- C2 (amended): joinBands on a Band whose single child is a Band merges
the two into one band whose affine function is the dimension-stacking
concatenation, whose unroll vector is the concatenation in original
order, and whose coincident vector keeps the outer band's flags and
resets only the members coming from the nested band to false;
joinBandsIterative on a chain of N single-child bands yields one band
whose coincident vector is the first band's flags followed by false for
every member contributed by the nested bands, with the N unroll vectors
concatenated in original order. -/
theorem C2_amended :
    (∀ (T : Type) (m : Pt T → Vec) (c u : List Bool) (pm : Bool)
        (cm : Pt T → Vec) (cc cu : List Bool) (cpm : Bool)
        (gcs : List (STree T)) (perm : Bool),
      joinBands (.band m c u pm [.band cm cc cu cpm gcs]) perm
        = some (.band (mupaFRP m cm) (c ++ List.replicate cc.length false)
            (u ++ cu) perm gcs))
    ∧ (∀ (T : Type) (b : BandSpec T) (bs : List (BandSpec T))
        (ts : List (STree T)) (perm : Bool),
      joinBandsIterative (bandChain (b :: bs) (.sequence ts)) perm
        = some (.band (mupaFRP b.mupa (chainMupa bs))
            (b.coinc ++ List.replicate (chainCoincLen bs) false)
            (b.unroll ++ chainUnroll bs) perm [.sequence ts])) := by
  constructor
  · intro T m c u pm cm cc cu cpm gcs perm
    rfl
  · intro T b bs ts perm
    rw [joinBandsIterative]
    exact joinBandsIterativeFuel_chain bs b ts perm _
      (by rw [size_bandChain]; simp [size, sizeL]; omega)

/-- C3 code behaviour: on a permutable two-member band with identity
affine, bandTile with the undersized size vector [3] zero-pads it to
[3, 0] and then multiplies the second member's affine by the value 0:
at the instance (S, [5, 7]) the outer band's affine evaluates to [1, 0]
although the second member's original affine value is 7, so the
zero-padded member is not left untiled, contradicting the claim. -/
theorem C3_zero_padded_member_scaled_to_zero :
    ((bandTile c3Band [3] ⟨false, false⟩).bind STree.mupaOf).map
        (fun f => f ("S", [5, 7])) = some [1, 0]
    ∧ (STree.mupaOf c3Band).map (fun f => (f ("S", [5, 7])).getD 1 0) = some 7 := by
  exact ⟨rfl, rfl⟩

/-- C9: bandTile called with an empty tileSizes vector returns the band
unchanged, whatever its permutable flag, children and the options: the
empty-size early return precedes the permutability check. -/
theorem C9_bandTile_empty_sizes (m : Pt S → Vec) (c u : List Bool) (perm : Bool)
    (cs : List (STree S)) (opts : TileOptions) :
    bandTile (.band m c u perm cs) [] opts = some (.band m c u perm cs) := rfl

/-- C10: bandSplit on a Band with zero members fails fatally for every
position, including position 0: the member-count check precedes the
position checks. -/
theorem C10_bandSplit_zero_members (root : STree S) (m : Pt S → Vec)
    (u : List Bool) (perm : Bool) (cs : List (STree S)) (pos : Nat) :
    bandSplit root (.band m [] u perm cs) pos = none := rfl

/-- C5: on a Band with at least one member whose affine function has the
member count as its dimension, bandSplit at any position up to the member
count followed by joinBands reconstructs a band whose affine function
equals the original one. -/
theorem C5_bandSplit_joinBands_roundtrip (root : STree S) (m : Pt S → Vec)
    (c u : List Bool) (perm perm2 : Bool) (cs : List (STree S)) (pos : Nat)
    (hlen : ∀ p, (m p).length = c.length) (hn : 1 ≤ c.length)
    (hpos : pos ≤ c.length) :
    ((bandSplit root (.band m c u perm cs) pos).bind
        (fun t => joinBands t perm2)).bind STree.mupaOf = some m := by
  have h1 : bandSplit root (.band m c u perm cs) pos
      = some (.band (bandDropMupa m pos (nMemberOf c - pos))
          (dropFlags c pos (nMemberOf c - pos)) (dropFlags u pos (nMemberOf c - pos))
          perm
          [.band (bandDropMupa m 0 pos) (dropFlags c 0 pos) (dropFlags u 0 pos)
            perm cs]) := by
    rw [bandSplit]
    rw [if_neg (show ¬(nMemberOf c = 0) by simp only [nMemberOf]; omega)]
    rw [if_neg (show ¬(nMemberOf c < pos) by simp only [nMemberOf]; omega)]
  rw [h1, Option.some_bind]
  have h2 : mupaFRP (bandDropMupa m pos (nMemberOf c - pos)) (bandDropMupa m 0 pos)
      = m := by
    funext p
    simp only [mupaFRP, bandDropMupa, nMemberOf, List.take_zero, List.nil_append,
      Nat.zero_add]
    rw [Nat.add_sub_cancel' hpos, ← hlen p, List.drop_length, List.append_nil,
      List.take_append_drop]
  rw [show joinBands (STree.band (bandDropMupa m pos (nMemberOf c - pos))
        (dropFlags c pos (nMemberOf c - pos)) (dropFlags u pos (nMemberOf c - pos))
        perm
        [STree.band (bandDropMupa m 0 pos) (dropFlags c 0 pos) (dropFlags u 0 pos)
          perm cs]) perm2
      = some (STree.band (mupaFRP (bandDropMupa m pos (nMemberOf c - pos))
            (bandDropMupa m 0 pos))
          (dropFlags c pos (nMemberOf c - pos)
            ++ List.replicate (dropFlags c 0 pos).length false)
          (dropFlags u pos (nMemberOf c - pos) ++ dropFlags u 0 pos) perm2 cs)
    from rfl]
  rw [Option.some_bind]
  show some (mupaFRP (bandDropMupa m pos (nMemberOf c - pos)) (bandDropMupa m 0 pos))
      = some m
  rw [h2]

/-- C5 witness: a concrete two-member band split at position 1 and
re-joined yields the original affine function. -/
theorem C5_witness :
    ((bandSplit (.sequence []) (.band (fun _ => [0, 1]) [false, false]
          [false, false] true []) 1).bind
        (fun t => joinBands t false)).bind STree.mupaOf
      = some (fun _ : Pt Unit => [0, 1]) :=
  C5_bandSplit_joinBands_roundtrip (.sequence []) (fun _ => [0, 1]) [false, false]
    [false, false] true false [] 1 (fun _ => rfl) (by decide) (by decide)

/-- C8: swapSubtree replaces a strict descendant, found at a path ending
at child position j of its parent, by the new subtree: the updated root
has the parent's child list with position j replaced, the new subtree is
found at the node's path, and swapSubtree on the root itself (the empty
path) fails fatally. -/
theorem C8_swapSubtree :
    (∀ (T : Type) (root : STree T) (p : List Nat) (j : Nat) (new parent : STree T),
      descend root p = some parent → j < parent.children.length →
      ∃ r, swapSubtree root (p ++ [j]) new = some r
        ∧ descend r p = some (parent.withChildren (parent.children.set j new))
        ∧ descend r (p ++ [j]) = some new)
    ∧ (∀ (T : Type) (root new : STree T), swapSubtree root [] new = none) := by
  constructor
  · intro T root p j new parent hd hj
    obtain ⟨r, h1, h2, h3⟩ := replaceAt_snoc p root parent new j hd hj
    refine ⟨r, ?_, h2, h3⟩
    rw [swapSubtree, if_neg (by simp)]
    obtain ⟨c, hc⟩ : ∃ c, parent.children[j]? = some c := by
      cases h : parent.children[j]? with
      | none => exact absurd (List.getElem?_eq_none_iff.mp h) (by omega)
      | some c => exact ⟨c, rfl⟩
    rw [descend_snoc, hd, Option.some_bind, hc, Option.some_bind]
    exact h1
  · intro T root new
    rw [swapSubtree, if_pos rfl]

/-- C8 witness: swapping the only child of a one-child sequence. -/
theorem C8_witness :
    ∃ r, swapSubtree (STree.sequence [STree.setNode []] : STree Unit) [0]
          (STree.sequence []) = some r
      ∧ descend r [] = some ((STree.sequence [STree.setNode []]).withChildren
          ((STree.sequence [STree.setNode []] : STree Unit).children.set 0
            (STree.sequence [])))
      ∧ descend r [0] = some (STree.sequence []) := by
  have h := C8_swapSubtree.1 Unit (STree.sequence [STree.setNode []]) [] 0
    (STree.sequence []) (STree.sequence [STree.setNode []]) rfl
    (by simp [STree.children])
  simpa using h

/-- C4: on the scenario band (one member, affine i to i and j to j) over
the two statement filters, bandTile with sizes [3] and options
ScaleTileLoops and ShiftPointLoops produces an outer band with affine
3 * floor(i / 3) whose only child is a band with affine
i - 3 * floor(i / 3), the original two filter children re-parented under
it; the inner affine always lies in [0, 3). -/
theorem C4_concrete_tile :
    bandTile c4Band [3] ⟨true, true⟩
      = some (.band (fun p => [3 * Int.fdiv p.2.headI 3]) [false] [false] true
          [.band (fun p => [p.2.headI - 3 * Int.fdiv p.2.headI 3]) [false] [false]
            true [c4FilterS, c4FilterT]])
    ∧ (∀ i : Int, 0 ≤ i - 3 * Int.fdiv i 3 ∧ i - 3 * Int.fdiv i 3 < 3) := by
  constructor
  · have hm : tileLoop ⟨true, true⟩ [3] (List.range 1) (fun p : Pt String => [p.2.headI])
        = fun p : Pt String => [3 * Int.fdiv p.2.headI 3] := by
      funext p
      show [p.2.headI].set 0 (Int.fdiv ([p.2.headI].getD 0 0) 3 * 3) = _
      simp [Int.mul_comm]
    have h0 : bandTile c4Band [3] ⟨true, true⟩
        = some (.band (tileLoop ⟨true, true⟩ [3] (List.range 1)
              (fun p : Pt String => [p.2.headI])) [false] [false] true
            [.band (mupaSub (fun p : Pt String => [p.2.headI])
                (tileLoop ⟨true, true⟩ [3] (List.range 1)
                  (fun p : Pt String => [p.2.headI]))) [false] [false] true
              [c4FilterS, c4FilterT]]) := rfl
    rw [h0, hm]
    have hc : mupaSub (fun p : Pt String => [p.2.headI])
          (fun p : Pt String => [3 * Int.fdiv p.2.headI 3])
        = fun p : Pt String => [p.2.headI - 3 * Int.fdiv p.2.headI 3] := by
      funext p; simp [mupaSub]
    rw [hc]
  · intro i
    rw [Int.fdiv_eq_ediv _ (by decide)]
    constructor <;> omega

/-- C1 counterexample: when the node itself is an Extension node, the
domain of partialSchedule contains the extension-introduced instance
(T, []) while activeDomainPoints at that node does not, since the
activeDomainPoints loop runs over strict ancestors only: the claimed
superset inclusion fails for Extension nodes. -/
theorem C1_counterexample :
    inDomOfSched (partialSchedule c1Root [0]) ("T", [])
    ∧ ¬ inOptSet (activeDomainPoints c1Root [0]) ("T", []) := by
  constructor
  · show ("T", ([] : Vec)) ∈ domMap (extendSchedule (.extension 0 c1Ext [])
        (fromDomain c1Dom))
    exact ⟨[], Or.inr ⟨show ([], ("T", ([] : Vec))) ∈ c1Ext from ⟨rfl, rfl⟩,
      ⟨("S", []), ⟨show ("S", ([] : Vec)) ∈ c1Dom from ⟨rfl, rfl⟩, rfl⟩⟩⟩⟩
  · show ¬ ("T", ([] : Vec)) ∈ c1Dom
    intro h
    exact absurd h.1 (by decide)

/-- C1 (amended): for a Domain-rooted tree with no inner Domain node,
activeDomainPoints at any node that is not itself an Extension node is a
superset of the domain of partialSchedule at that node; and
activeDomainPoints is monotonically non-increasing when the ancestors
added along an extended path are all Filter (or MappingFilter) nodes. -/
theorem C1_amended :
    (∀ (T : Type) (d : USet T) (kids : List (STree T)) (p : List Nat) (n : STree T),
      descend (STree.domain d kids) p = some n →
      noInnerDomain (STree.domain d kids) p →
      n.isExtension = false → n.isDomain = false →
      ∃ a M, activeDomainPoints (STree.domain d kids) p = some a
        ∧ partialSchedule (STree.domain d kids) p = some M ∧ domMap M ⊆ a)
    ∧ (∀ (T : Type) (d : USet T) (kids : List (STree T)) (p q : List Nat)
        (n n2 : STree T),
      descend (STree.domain d kids) p = some n →
      descend (STree.domain d kids) (p ++ q) = some n2 →
      (∀ e ∈ pathNodesWith n p q, e.1.isFilterLike = true) →
      ∃ a b, activeDomainPoints (STree.domain d kids) p = some a
        ∧ activeDomainPoints (STree.domain d kids) (p ++ q) = some b ∧ b ⊆ a) := by
  constructor
  · intro T d kids p n hd hni hne hnd
    have hp : p ≠ [] := by
      intro h
      subst h
      rw [descend_nil, Option.some.injEq] at hd
      rw [← hd] at hnd
      exact absurd hnd (by simp [STree.isDomain])
    obtain ⟨a, ha, -, hcons⟩ := adp_prefix_invariant d kids p n hd hni
    obtain ⟨P, hP, hPa⟩ := hcons hp
    refine ⟨a, extendSchedule n P, ?_, ?_, ?_⟩
    · rw [activeDomainPoints_domain, if_neg hp]
      exact ha
    · rw [partialSchedule_eq _ p n hd, hP, schedStep_some_nondomain _ _ hnd]
    · exact fun x hx => hPa (domMap_extendSchedule_nonext n P hne hnd hx)
  · intro T d kids p q n n2 hdp hdpq hflt
    obtain ⟨a, ha⟩ := Option.isSome_iff_exists.mp (activeDomainPoints_isSome d kids p)
    have hfold : adpFold (STree.domain d kids) d
        (pathNodesWith (STree.domain d kids) [] p) = some a := by
      by_cases hp : p = []
      · subst hp
        rw [activeDomainPoints_domain, if_pos rfl] at ha
        exact ha
      · rw [activeDomainPoints_domain, if_neg hp] at ha
        exact ha
    have hsplit : pathNodesWith (STree.domain d kids) [] (p ++ q)
        = pathNodesWith (STree.domain d kids) [] p ++ pathNodesWith n p q := by
      have := pathNodesWith_append p (STree.domain d kids) n [] q hdp
      simpa using this
    obtain ⟨b, hb, hba⟩ := adpFold_filters (STree.domain d kids)
      (pathNodesWith n p q) hflt a
    by_cases hpq : p ++ q = []
    · obtain ⟨hp, hq⟩ := List.append_eq_nil.mp hpq
      subst hp
      subst hq
      exact ⟨a, a, ha, ha, fun x hx => hx⟩
    · refine ⟨a, b, ha, ?_, hba⟩
      rw [activeDomainPoints_domain, if_neg hpq, hsplit, adpFold_append, hfold,
        Option.some_bind]
      exact hb

/-- C1 witness: both parts applied to a domain over a filter over a
sequence, at the sequence node. -/
theorem C1_witness :
    (∃ a M, activeDomainPoints c1wRoot [0, 0] = some a
      ∧ partialSchedule c1wRoot [0, 0] = some M ∧ domMap M ⊆ a)
    ∧ (∃ a b, activeDomainPoints c1wRoot [0] = some a
      ∧ activeDomainPoints c1wRoot [0, 0] = some b ∧ b ⊆ a) := by
  constructor
  · refine C1_amended.1 Unit Set.univ _ [0, 0] (.sequence []) rfl ?_ rfl rfl
    intro e he
    have he2 : e = (STree.filter {p : Pt Unit | p.2 = []} [.sequence []], [0]) := by
      simpa [pathNodesWith, STree.children] using he
    rw [he2]
    rfl
  · refine C1_amended.2 Unit Set.univ _ [0] [0]
      (.filter {p | p.2 = []} [.sequence []]) (.sequence []) rfl rfl ?_
    intro e he
    have he2 : e = (STree.filter {p : Pt Unit | p.2 = []} [.sequence []], [0]) := by
      simpa [pathNodesWith, STree.children] using he
    rw [he2]
    rfl

/-- C7 counterexample: an Extension node with a one-dimensional domain
side and no Band ancestor sits under the Domain root, yet
activeDomainPoints below it succeeds rather than failing fatally: with a
Domain root the prefix schedule at the extension point is never null, so
the fatal check cannot fire. -/
theorem C7_counterexample :
    descend c7Root [0] = some (.extension 1 c7Ext [.sequence []])
    ∧ (activeDomainPoints c7Root [0, 0]).isSome = true := ⟨rfl, rfl⟩

/-- C7 (amended): when the root is a Domain node, the prefix schedule at
every Extension ancestor is non-null (even with no Band ancestor, where
it is the zero-dimensional schedule of the domain), so the
zero-dimensional-domain check is vacuous, the extension is always
processed through the conditional branch that intersects the prefix
schedule with the active set and applies the extension to its range, the
unconditional range-union branch is unreachable, and activeDomainPoints
never fails. -/
theorem C7_amended (T : Type) (root : STree T) (d : USet T) (kids : List (STree T))
    (hroot : root = .domain d kids) (p : List Nat) :
    (activeDomainPoints root p).isSome = true
    ∧ (∀ e ∈ pathNodesWith root [] p, e.1.isExtension = true →
        (prefixSchedule root e.2).isSome = true) := by
  subst hroot
  exact ⟨activeDomainPoints_isSome d kids p,
    extension_ancestor_prefix_isSome d kids p⟩

----------------------------------------------------------------------
-- Mapping-filter merge lemmas
----------------------------------------------------------------------

theorem size_mfChain (ss : List (MFSpec S)) (t : STree S) :
    size (mfChain ss t) = ss.length + size t := by
  induction ss with
  | nil => simp [mfChain]
  | cons s rest ih => simp [mfChain, size, sizeL, ih]; omega

theorem collectMF_mfChain (ss : List (MFSpec S)) :
    ∀ pre : List Nat, collectMF pre (mfChain ss (.sequence []))
      = mfPaths pre ss.length := by
  induction ss with
  | nil => intro pre; rfl
  | cons s rest ih =>
      intro pre
      show pre :: (collectMF (pre ++ [0]) (mfChain rest (.sequence [])) ++ []) = _
      rw [ih (pre ++ [0]), List.append_nil]
      rfl

theorem collectMF_dom_chain (d : USet S) (ss : List (MFSpec S)) :
    collectMF [] (STree.domain d [mfChain ss (.sequence [])])
      = mfPaths [0] ss.length := by
  show collectMF [0] (mfChain ss (.sequence [])) ++ [] = _
  rw [collectMF_mfChain ss [0], List.append_nil]

theorem tryMergeAt_chain2 (d : USet S) (s s2 : MFSpec S) (rest : List (MFSpec S)) :
    tryMergeAt (STree.domain d [mfChain (s :: s2 :: rest) (.sequence [])]) [0, 0]
      = if nSet (s.filt ∩ s2.filt) = nSet s.filt
          ∧ nSet (s.filt ∩ s2.filt) = nSet s2.filt then
          (if (s.ids ∩ s2.ids).Nonempty then some none
           else some (some (STree.domain d
              [mfChain (⟨s.filt ∩ s2.filt, s.ids ∪ s2.ids⟩ :: rest) (.sequence [])])))
        else none := rfl

theorem scanMerge_chain (d : USet S) (s s2 : MFSpec S) (rest : List (MFSpec S))
    (h1 : nSet (s.filt ∩ s2.filt) = nSet s.filt)
    (h2 : nSet (s.filt ∩ s2.filt) = nSet s2.filt)
    (hdisj : s.ids ∩ s2.ids = ∅) :
    scanMerge (STree.domain d [mfChain (s :: s2 :: rest) (.sequence [])])
        (collectMF [] (STree.domain d [mfChain (s :: s2 :: rest) (.sequence [])]))
      = some (some (STree.domain d
          [mfChain (⟨s.filt ∩ s2.filt, s.ids ∪ s2.ids⟩ :: rest) (.sequence [])])) := by
  rw [collectMF_dom_chain]
  rw [show mfPaths [0] (s :: s2 :: rest).length
      = [0] :: [0, 0] :: mfPaths [0, 0, 0] rest.length from rfl]
  rw [scanMerge,
    show tryMergeAt (STree.domain d [mfChain (s :: s2 :: rest) (.sequence [])]) [0]
      = none from rfl,
    scanMerge, tryMergeAt_chain2, if_pos ⟨h1, h2⟩,
    if_neg (by rw [hdisj]; exact Finset.not_nonempty_empty)]

theorem mergeLoop_chain_step (d : USet S) (s s2 : MFSpec S) (rest : List (MFSpec S))
    (f : Nat)
    (h1 : nSet (s.filt ∩ s2.filt) = nSet s.filt)
    (h2 : nSet (s.filt ∩ s2.filt) = nSet s2.filt)
    (hdisj : s.ids ∩ s2.ids = ∅) :
    mergeLoop [] (f + 1) (STree.domain d [mfChain (s :: s2 :: rest) (.sequence [])])
      = mergeLoop [] f (STree.domain d
          [mfChain (⟨s.filt ∩ s2.filt, s.ids ∪ s2.ids⟩ :: rest) (.sequence [])]) := by
  rw [show mergeLoop [] (f + 1)
        (STree.domain d [mfChain (s :: s2 :: rest) (.sequence [])])
      = (match scanMerge (STree.domain d [mfChain (s :: s2 :: rest) (.sequence [])])
            (collectMF []
              (STree.domain d [mfChain (s :: s2 :: rest) (.sequence [])])) with
        | none => some (STree.domain d [mfChain (s :: s2 :: rest) (.sequence [])])
        | some none => none
        | some (some r) => mergeLoop [] f r) from rfl]
  rw [scanMerge_chain d s s2 rest h1 h2 hdisj]

theorem mergeLoop_chain2_stuck (d : USet S) (s s2 : MFSpec S) (fuel : Nat)
    (hfail : ¬(nSet (s.filt ∩ s2.filt) = nSet s.filt
        ∧ nSet (s.filt ∩ s2.filt) = nSet s2.filt)) :
    mergeLoop [] fuel (STree.domain d [mfChain [s, s2] (.sequence [])])
      = some (STree.domain d [mfChain [s, s2] (.sequence [])]) := by
  cases fuel with
  | zero => rfl
  | succ f =>
      rw [show mergeLoop [] (f + 1)
            (STree.domain d [mfChain [s, s2] (.sequence [])])
          = (match scanMerge (STree.domain d [mfChain [s, s2] (.sequence [])])
                (collectMF [] (STree.domain d [mfChain [s, s2] (.sequence [])])) with
            | none => some (STree.domain d [mfChain [s, s2] (.sequence [])])
            | some none => none
            | some (some r) => mergeLoop [] f r) from rfl]
      rw [collectMF_dom_chain,
        show mfPaths [0] ([s, s2] : List (MFSpec S)).length
          = [[0], [0, 0]] from rfl,
        scanMerge,
        show tryMergeAt (STree.domain d [mfChain [s, s2] (.sequence [])]) [0]
          = none from rfl,
        scanMerge, tryMergeAt_chain2, if_neg hfail]
      rfl

theorem mergeLoop_chain2_fatal (d : USet S) (s s2 : MFSpec S) (f : Nat)
    (h1 : nSet (s.filt ∩ s2.filt) = nSet s.filt)
    (h2 : nSet (s.filt ∩ s2.filt) = nSet s2.filt)
    (hcol : (s.ids ∩ s2.ids).Nonempty) :
    mergeLoop [] (f + 1) (STree.domain d [mfChain [s, s2] (.sequence [])])
      = none := by
  rw [show mergeLoop [] (f + 1)
        (STree.domain d [mfChain [s, s2] (.sequence [])])
      = (match scanMerge (STree.domain d [mfChain [s, s2] (.sequence [])])
            (collectMF [] (STree.domain d [mfChain [s, s2] (.sequence [])])) with
        | none => some (STree.domain d [mfChain [s, s2] (.sequence [])])
        | some none => none
        | some (some r) => mergeLoop [] f r) from rfl]
  rw [collectMF_dom_chain,
    show mfPaths [0] ([s, s2] : List (MFSpec S)).length = [[0], [0, 0]] from rfl,
    scanMerge,
    show tryMergeAt (STree.domain d [mfChain [s, s2] (.sequence [])]) [0]
      = none from rfl,
    scanMerge, tryMergeAt_chain2, if_pos ⟨h1, h2⟩, if_pos hcol]

theorem mergeLoop_mfChain (ss : List (MFSpec S)) :
    ∀ (s : MFSpec S) (d : USet S) (fuel : Nat),
    ss.length ≤ fuel → stepwiseOk s.filt ss → idsOk s.ids ss →
    mergeLoop [] fuel (STree.domain d [mfChain (s :: ss) (.sequence [])])
      = some (STree.domain d [.mappingFilter (chainInter s.filt ss)
          (chainIds s.ids ss) [.sequence []]]) := by
  induction ss with
  | nil =>
      intro s d fuel _ _ _
      cases fuel with
      | zero => rfl
      | succ f => rfl
  | cons s2 rest ih =>
      intro s d fuel hf hsw hids
      obtain ⟨h1, h2, hsw'⟩ := hsw
      obtain ⟨hdisj, hids'⟩ := hids
      cases fuel with
      | zero => simp at hf
      | succ f =>
          rw [mergeLoop_chain_step d s s2 rest f h1 h2 hdisj]
          exact ih ⟨s.filt ∩ s2.filt, s.ids ∪ s2.ids⟩ d f
            (by simp at hf; omega) hsw' hids'

theorem idsOk_of_pairwise (ss : List (MFSpec S)) :
    ∀ acc : Finset Nat, (∀ x ∈ ss, Disjoint acc x.ids) →
    ss.Pairwise (fun a b => Disjoint a.ids b.ids) → idsOk acc ss := by
  induction ss with
  | nil => intro acc _ _; trivial
  | cons s2 rest ih =>
      intro acc hacc hpw
      rw [List.pairwise_cons] at hpw
      refine ⟨Finset.disjoint_iff_inter_eq_empty.mp
          (hacc s2 (List.mem_cons_self s2 rest)), ih (acc ∪ s2.ids) ?_ hpw.2⟩
      intro x hx
      exact Finset.disjoint_union_left.mpr
        ⟨hacc x (List.mem_cons_of_mem s2 hx), hpw.1 x hx⟩

theorem nSet_support_singleton (u : USet String) (a : String) (v : Vec)
    (hmem : (a, v) ∈ u) (hall : ∀ p ∈ u, p.1 = a) : nSet u = 1 := by
  rw [nSet]
  have hsupp : {s | ∃ w, (s, w) ∈ u} = {a} := by
    ext x
    constructor
    · rintro ⟨w, hw⟩
      exact hall _ hw
    · intro hx
      rw [Set.mem_singleton_iff] at hx
      subst hx
      exact ⟨v, hmem⟩
  rw [hsupp]
  exact Set.ncard_singleton a

theorem nSet_empty_support (u : USet S) (h : ∀ p, p ∉ u) : nSet u = 0 := by
  rw [nSet]
  have hsupp : {s : S | ∃ w : Vec, (s, w) ∈ u} = ∅ := by
    ext x
    simp only [Set.mem_setOf_eq, Set.mem_empty_iff_false, iff_false, not_exists]
    exact fun w hw => h (x, w) hw
  rw [hsupp]
  exact Set.ncard_empty S

theorem nSet_c6F1 : nSet c6F1 = 1 :=
  nSet_support_singleton c6F1 "A" [1] ⟨rfl, Or.inl rfl⟩ (fun _ hp => hp.1)

theorem nSet_c6F2 : nSet c6F2 = 1 :=
  nSet_support_singleton c6F2 "A" [2] ⟨rfl, Or.inl rfl⟩ (fun _ hp => hp.1)

theorem nSet_c6F3 : nSet c6F3 = 1 :=
  nSet_support_singleton c6F3 "A" [1] ⟨rfl, Or.inl rfl⟩ (fun _ hp => hp.1)

theorem nSet_c6F12 : nSet (c6F1 ∩ c6F2) = 1 :=
  nSet_support_singleton _ "A" [2] ⟨⟨rfl, Or.inr rfl⟩, ⟨rfl, Or.inl rfl⟩⟩
    (fun _ hp => hp.1.1)

theorem nSet_c6F13 : nSet (c6F1 ∩ c6F3) = 1 :=
  nSet_support_singleton _ "A" [1] ⟨⟨rfl, Or.inl rfl⟩, ⟨rfl, Or.inl rfl⟩⟩
    (fun _ hp => hp.1.1)

theorem nSet_c6F23 : nSet (c6F2 ∩ c6F3) = 1 :=
  nSet_support_singleton _ "A" [3] ⟨⟨rfl, Or.inr rfl⟩, ⟨rfl, Or.inr rfl⟩⟩
    (fun _ hp => hp.1.1)

theorem nSet_c6F123 : nSet ((c6F1 ∩ c6F2) ∩ c6F3) = 0 := by
  apply nSet_empty_support
  rintro ⟨s, v⟩ ⟨⟨⟨-, h1⟩, -, h2⟩, -, h3⟩
  rcases h1 with h1 | h1 <;> rcases h2 with h2 | h2 <;> rcases h3 with h3 | h3 <;>
    simp_all

theorem nSet_c6G1 : nSet c6G1 = 1 :=
  nSet_support_singleton c6G1 "A" [1] ⟨rfl, rfl⟩ (fun _ hp => hp.1)

theorem nSet_c6G12 : nSet (c6G1 ∩ c6G2) = 0 := by
  apply nSet_empty_support
  rintro ⟨s, v⟩ ⟨⟨-, h1⟩, -, h2⟩
  simp_all

theorem nSet_c6G11 : nSet (c6G1 ∩ c6G1) = 1 :=
  nSet_support_singleton _ "A" [1] ⟨⟨rfl, rfl⟩, ⟨rfl, rfl⟩⟩ (fun _ hp => hp.1.1)

----------------------------------------------------------------------
-- C6 claim theorems
----------------------------------------------------------------------

/-- C6 counterexample: on a chain of three nested MappingFilters with
pairwise disjoint id sets whose pairwise intersections all preserve both
operands' tuple counts, mergeConsecutiveMappingFilters merges only the
first two filters and then stops (the accumulated intersection empties
statement A against the third filter), leaving two MappingFilter nodes:
the claimed collapse to a single node under merely pairwise hypotheses
is false. -/
theorem C6_counterexample :
    (mergeConsecutiveMappingFilters c6xRoot []).map
        (fun t => (collectMF [] t).length) = some 2
    ∧ (nSet (c6F1 ∩ c6F2) = nSet c6F1 ∧ nSet (c6F1 ∩ c6F2) = nSet c6F2)
    ∧ (nSet (c6F1 ∩ c6F3) = nSet c6F1 ∧ nSet (c6F1 ∩ c6F3) = nSet c6F3)
    ∧ (nSet (c6F2 ∩ c6F3) = nSet c6F2 ∧ nSet (c6F2 ∩ c6F3) = nSet c6F3)
    ∧ ({0} : Finset Nat) ∩ {1} = ∅ ∧ ({0} : Finset Nat) ∩ {2} = ∅
    ∧ ({1} : Finset Nat) ∩ {2} = ∅ := by
  refine ⟨?_, ⟨?_, ?_⟩, ⟨?_, ?_⟩, ⟨?_, ?_⟩, by decide, by decide, by decide⟩
  · rw [show mergeConsecutiveMappingFilters c6xRoot []
        = mergeLoop [] (size c6xRoot) c6xRoot from rfl,
      show size c6xRoot = 4 + 1 from rfl,
      show c6xRoot = STree.domain Set.univ
        [mfChain [⟨c6F1, {0}⟩, ⟨c6F2, {1}⟩, ⟨c6F3, {2}⟩] (.sequence [])] from rfl,
      mergeLoop_chain_step Set.univ ⟨c6F1, {0}⟩ ⟨c6F2, {1}⟩ [⟨c6F3, {2}⟩] 4
        (by rw [nSet_c6F12, nSet_c6F1]) (by rw [nSet_c6F12, nSet_c6F2]) (by decide),
      mergeLoop_chain2_stuck Set.univ ⟨c6F1 ∩ c6F2, {0} ∪ {1}⟩ ⟨c6F3, {2}⟩ 4
        (by
          rintro ⟨ha, -⟩
          rw [nSet_c6F123, nSet_c6F12] at ha
          exact absurd ha (by decide))]
    rfl
  · rw [nSet_c6F12, nSet_c6F1]
  · rw [nSet_c6F12, nSet_c6F2]
  · rw [nSet_c6F13, nSet_c6F1]
  · rw [nSet_c6F13, nSet_c6F3]
  · rw [nSet_c6F23, nSet_c6F2]
  · rw [nSet_c6F23, nSet_c6F3]

/-- C6 (amended): on a chain of K nested MappingFilters with pairwise
disjoint id sets, if every step of the left-to-right merge preserves the
tuple counts of both operands (the accumulated intersection against the
next filter), mergeConsecutiveMappingFilters collapses the chain into a
single MappingFilter whose id set is the union of all K id sets and
whose filter is the intersection of all K filter sets; a pair whose
intersection does not preserve the tuple counts is left unmerged; and an
id bound in both members of a merging pair is a fatal error. -/
theorem C6_amended :
    (∀ (T : Type) (d : USet T) (s : MFSpec T) (ss : List (MFSpec T)),
      stepwiseOk s.filt ss →
      (s :: ss).Pairwise (fun a b => Disjoint a.ids b.ids) →
      mergeConsecutiveMappingFilters
          (STree.domain d [mfChain (s :: ss) (.sequence [])]) []
        = some (STree.domain d [.mappingFilter (chainInter s.filt ss)
            (chainIds s.ids ss) [.sequence []]]))
    ∧ mergeConsecutiveMappingFilters c6bRoot [] = some c6bRoot
    ∧ mergeConsecutiveMappingFilters c6cRoot [] = none := by
  refine ⟨?_, ?_, ?_⟩
  · intro T d s ss hsw hpw
    rw [show mergeConsecutiveMappingFilters
          (STree.domain d [mfChain (s :: ss) (.sequence [])]) []
        = mergeLoop [] (size (STree.domain d [mfChain (s :: ss) (.sequence [])]))
            (STree.domain d [mfChain (s :: ss) (.sequence [])]) from rfl]
    rw [List.pairwise_cons] at hpw
    exact mergeLoop_mfChain ss s d _
      (by
        rw [show size (STree.domain d [mfChain (s :: ss) (.sequence [])])
            = 1 + (size (mfChain (s :: ss) (.sequence [])) + 0) from rfl,
          size_mfChain]
        simp only [List.length_cons]
        omega) hsw
      (idsOk_of_pairwise ss s.ids hpw.1 hpw.2)
  · rw [show mergeConsecutiveMappingFilters c6bRoot []
        = mergeLoop [] (size c6bRoot) c6bRoot from rfl,
      show c6bRoot = STree.domain Set.univ
        [mfChain [⟨c6G1, {0}⟩, ⟨c6G2, {1}⟩] (.sequence [])] from rfl]
    exact mergeLoop_chain2_stuck Set.univ ⟨c6G1, {0}⟩ ⟨c6G2, {1}⟩ _
      (by
        rintro ⟨ha, -⟩
        rw [nSet_c6G12, nSet_c6G1] at ha
        exact absurd ha (by decide))
  · rw [show mergeConsecutiveMappingFilters c6cRoot []
        = mergeLoop [] (size c6cRoot) c6cRoot from rfl,
      show size c6cRoot = 3 + 1 from rfl,
      show c6cRoot = STree.domain Set.univ
        [mfChain [⟨c6G1, {5}⟩, ⟨c6G1, {5}⟩] (.sequence [])] from rfl]
    exact mergeLoop_chain2_fatal Set.univ ⟨c6G1, {5}⟩ ⟨c6G1, {5}⟩ 3
      (by rw [nSet_c6G11, nSet_c6G1]) (by rw [nSet_c6G11, nSet_c6G1]) (by decide)

/-- C6 witness: the general collapse applied to a concrete 2-chain with
equal filters and disjoint id sets. -/
theorem C6_witness :
    mergeConsecutiveMappingFilters
        (STree.domain Set.univ
          [mfChain [⟨c6G1, {0}⟩, ⟨c6G1, {1}⟩] (.sequence [])]) []
      = some (STree.domain Set.univ
          [.mappingFilter (chainInter c6G1 [⟨c6G1, {1}⟩])
            (chainIds {0} [⟨c6G1, {1}⟩]) [.sequence []]]) :=
  C6_amended.1 String Set.univ ⟨c6G1, {0}⟩ [⟨c6G1, {1}⟩]
    ⟨by rw [nSet_c6G11, nSet_c6G1], by rw [nSet_c6G11, nSet_c6G1], trivial⟩
    (by simp [List.pairwise_cons])

/-- C7 witness: the amended statement at a domain root over an extension
node. -/
theorem C7_witness :
    (activeDomainPoints (STree.domain (∅ : USet Unit) [.extension 0 ∅ []])
        [0]).isSome = true
    ∧ (∀ e ∈ pathNodesWith (STree.domain (∅ : USet Unit) [.extension 0 ∅ []]) [] [0],
        e.1.isExtension = true →
        (prefixSchedule (STree.domain (∅ : USet Unit) [.extension 0 ∅ []])
          e.2).isSome = true) :=
  C7_amended Unit _ ∅ [.extension 0 ∅ []] rfl [0]

end TCSched
